import Mathlib

/-!
Verification of the subject-filtered semantic retrieval engine of the
mcat_study_helper repository, together with the frontend fetch logic of
`src/mcat-frontend/src/App.js`.

The repository's source tree contains only the React frontend; the engine
itself (Category Resolver, Text Embedder, Index Builder, Index Store,
Query Processor) is described by the specification but its code is not
present.  Those components are therefore modelled from the spec, faithful
to its words; the frontend state logic is embedded from `App.js`.

Similarity scores are modelled as integers: every property under study
depends only on the ordering of scores, never on their numeric values,
and the embedding function and similarity metric are kept as parameters
of every definition and theorem.
-/

namespace Mcat

/-- Modelled from the spec (section 3, Resource Record): the resource type
enumeration `Video | Article | Other`. -/
inductive ResourceType
  | Video
  | Article
  | Other
deriving DecidableEq, Repr

/-- Modelled from the spec (section 3, Resource Record): the immutable input
record. -/
structure ResourceRecord where
  subtopic_name : String
  resource_name : String
  resource_url : String
  resource_type : ResourceType
  foundation_name : String
  foundation_url : String
  estimated_time : String
deriving DecidableEq, Repr

/-- Modelled from the spec (section 3, Category Map): a mapping from subject
name to the ordered set of foundation names it covers, represented as an
association list. -/
abbrev CategoryMap := List (String × List String)

/-- Modelled from the spec (section 7): the error taxonomy of the engine. -/
inductive EngineError
  | UnknownSubject
  | InvalidInput
  | ServiceUnavailable
  | IndexVersionMismatch
deriving DecidableEq, Repr

/-- Classes of surfaced errors: 4xx-equivalent (client) or 5xx-equivalent
(server), per the spec (section 7). -/
inductive ErrorClass
  | client
  | server
deriving DecidableEq, Repr

/-- Modelled from the spec (section 7): `InvalidInput` and `UnknownSubject`
are 4xx-equivalent; `ServiceUnavailable` and `IndexVersionMismatch` are
5xx-equivalent. -/
def errorClass : EngineError → ErrorClass
  | .UnknownSubject => .client
  | .InvalidInput => .client
  | .ServiceUnavailable => .server
  | .IndexVersionMismatch => .server

/-- Modelled from the spec (section 4.1, Category Resolver): pure lookup of a
subject in the Category Map; an unknown subject fails closed with
`UnknownSubject`. -/
def resolve (cmap : CategoryMap) (subject : String) :
    Except EngineError (List String) :=
  match List.find? (fun p => p.1 == subject) cmap with
  | some p => .ok p.2
  | none => .error .UnknownSubject

/-- Modelled from the spec (section 3, Descriptive Text): the canonical
string derived from a record, used as the embedding input at index time. -/
def descriptiveText (r : ResourceRecord) : String :=
  r.foundation_name ++ ": " ++ r.subtopic_name ++ " - " ++ r.resource_name

/-- Modelled from the spec (section 3, Index Entry): stable id derived from
the record, from `resource_url` and `resource_name`. -/
def stableId (r : ResourceRecord) : String :=
  r.resource_url ++ "|" ++ r.resource_name

/-- Modelled from the spec (section 3, Index Entry): an id, an embedding
vector and the full record as metadata. -/
structure IndexEntry where
  id : String
  embedding : List Int
  metadata : ResourceRecord
deriving DecidableEq, Repr

/-- Modelled from the spec (section 4.4, Index Store): the persisted set of
entries, in insertion order. -/
abbrev IndexStore := List IndexEntry

/-- Modelled from the spec (sections 4.2 and 4.3): the entry built for one
record, for a given embedding function. -/
def mkEntry (embed : String → List Int) (r : ResourceRecord) : IndexEntry :=
  ⟨stableId r, embed (descriptiveText r), r⟩

/-- Whether the store already holds an entry with the given id. -/
def hasId (store : IndexStore) (id : String) : Bool :=
  List.any store (fun en => en.id == id)

/-- Modelled from the spec (section 4.4, Index Store): `upsert` replaces the
entry with a matching id in place, or appends a fresh entry. -/
def upsert (store : IndexStore) (e : IndexEntry) : IndexStore :=
  if hasId store e.id then
    List.map (fun en => if en.id == e.id then e else en) store
  else store ++ [e]

/-- Modelled from the spec (section 4.3, Index Builder): for every record,
build its Descriptive Text, embed it, derive the stable id and upsert the
entry into the Index Store. -/
def build (embed : String → List Int) (store : IndexStore)
    (records : List ResourceRecord) : IndexStore :=
  List.foldl (fun st r => upsert st (mkEntry embed r)) store records

/-- Lookup of the entry stored under an id. -/
def entryAt (store : IndexStore) (id : String) : Option IndexEntry :=
  List.find? (fun en => en.id == id) store

/-- Modelled from the spec (section 3, Query): subject, topic, optional
subtopic refinement, and an optional requested limit. -/
structure Query where
  subject : String
  topic : String
  subtopic : Option String
  limit : Option Nat
deriving DecidableEq, Repr

/-- Modelled from the spec (section 3, Query): the text that is embedded and
searched; the topic, a space and the subtopic when a subtopic is supplied,
the topic alone otherwise. -/
def effectiveQueryText (topic : String) (subtopic : Option String) : String :=
  match subtopic with
  | some s => topic ++ " " ++ s
  | none => topic

/-- Modelled from the spec (section 3, Query): limit default 5 and hard cap
20, enforced even when the caller requests more. -/
def effectiveLimit : Option Nat → Nat
  | none => 5
  | some n => min n 20

/-- Scored search hit: metadata paired with a similarity score. -/
abbrev Scored := ResourceRecord × Int

/-- Ranking relation on scored hits: descending similarity score. -/
def scoreGe (a b : Scored) : Prop := b.2 ≤ a.2

instance : DecidableRel scoreGe := fun a b => Int.decLe b.2 a.2

instance : IsTotal Scored scoreGe := ⟨fun a b => Int.le_total b.2 a.2⟩

instance : IsTrans Scored scoreGe :=
  ⟨fun _ _ _ h h2 => Int.le_trans h2 h⟩

/-- Modelled from the spec (section 4.4, Index Store): filtered
nearest-neighbor search.  The categorical filter on `foundation_name` is
applied before ranking; hits are ordered by descending score with a stable
deterministic tiebreak (insertion order), and truncated to `topK`. -/
def search (sim : List Int → List Int → Int) (store : IndexStore)
    (qvec : List Int) (allowed : List String) (topK : Nat) : List Scored :=
  let candidates := List.filter
    (fun e => List.contains allowed e.metadata.foundation_name) store
  let scored : List Scored := List.map
    (fun e => (e.metadata, sim qvec e.embedding)) candidates
  List.take topK (List.insertionSort scoreGe scored)

/-- Removal of leading and trailing whitespace, written structurally over the
character list so that it evaluates inside the kernel. -/
def strTrim (s : String) : String :=
  ⟨List.reverse (List.dropWhile Char.isWhitespace
    (List.reverse (List.dropWhile Char.isWhitespace s.data)))⟩

/-- Lower-casing of every character, written structurally over the character
list so that it evaluates inside the kernel. -/
def strToLower (s : String) : String := ⟨List.map Char.toLower s.data⟩

/-- Modelled from the spec: resource identity used for deduplication; URLs
differing only by surrounding whitespace or casing denote the same
resource. -/
def normUrl (u : String) : String := strToLower (strTrim u)

/-- Deduplication worker: keeps the first hit carrying each normalized
`resource_url` not already seen. -/
def dedupAux (seen : List String) : List Scored → List Scored
  | [] => []
  | x :: xs =>
    if normUrl x.1.resource_url ∈ seen then dedupAux seen xs
    else x :: dedupAux (normUrl x.1.resource_url :: seen) xs

/-- Modelled from the spec (section 4.5, step 4): deduplicate by resource
identity, preserving the highest-scoring occurrence and the rank order. -/
def dedupByUrl (l : List Scored) : List Scored := dedupAux [] l

/-- Modelled from the spec (section 4.5, Query Processor): resolve the
allowed foundations (failing closed on an unknown subject), embed the
effective query text (empty text after trimming is `InvalidInput`, per
section 4.2), run the filtered search, deduplicate, and truncate
defensively to the effective limit. -/
def find (cmap : CategoryMap) (embed : String → List Int)
    (sim : List Int → List Int → Int) (store : IndexStore) (q : Query) :
    Except EngineError (List Scored) := do
  let allowed ← resolve cmap q.subject
  let qtext := effectiveQueryText q.topic q.subtopic
  if (strTrim qtext).data.isEmpty then
    throw .InvalidInput
  else
    let qvec := embed qtext
    let hits := search sim store qvec allowed (effectiveLimit q.limit)
    return List.take (effectiveLimit q.limit) (dedupByUrl hits)

/-- Search hits of a query before deduplication and defensive truncation,
named so that theorems can relate returned entries to all raw hits. -/
def searchHits (cmap : CategoryMap) (embed : String → List Int)
    (sim : List Int → List Int → Int) (store : IndexStore) (q : Query) :
    List Scored :=
  match resolve cmap q.subject with
  | .error _ => []
  | .ok allowed =>
    search sim store (embed (effectiveQueryText q.topic q.subtopic)) allowed
      (effectiveLimit q.limit)

end Mcat

namespace Frontend

open Mcat

/-- Outcome of the HTTP fetch in `fetchResources` (`App.js`, lines 124-137):
a network-level failure, a non-ok HTTP response with an error detail, or an
ok response whose `resources` field may be absent. -/
inductive ApiResponse
  | netError (msg : String)
  | httpError (detail : String)
  | ok (resources : Option (List ResourceRecord))

/-- Frontend state touched by `fetchResources`: the `resources`, `error` and
`isLoading` React state variables of `App.js`. -/
structure FrontState where
  resources : List ResourceRecord
  error : Option String
  isLoading : Bool

/-- Embedding of `fetchResources` (`App.js`, lines 117-138): the state after
the call completes.  The function first sets `isLoading`, clears `error` and
`resources`; on an ok response it stores `data.resources || []`; a non-ok
response throws `API Error: ...` which, like a network failure, is caught
and stored in `error`; `finally` clears `isLoading`. -/
def fetchResources (st : FrontState) (resp : ApiResponse) : FrontState :=
  let st1 : FrontState := { st with resources := [], error := none, isLoading := true }
  match resp with
  | .ok rs => { st1 with resources := rs.getD [], isLoading := false }
  | .httpError d =>
      { st1 with error := some ("API Error: " ++ d), isLoading := false }
  | .netError m => { st1 with error := some m, isLoading := false }

end Frontend

namespace Mcat

/-! Helper lemmas about the search, deduplication and find pipeline. -/

theorem mem_search {sim : List Int → List Int → Int} {store : IndexStore}
    {qvec : List Int} {allowed : List String} {k : Nat} {p : Scored}
    (h : p ∈ search sim store qvec allowed k) :
    ∃ e, e ∈ store ∧ e.metadata.foundation_name ∈ allowed ∧
      p = (e.metadata, sim qvec e.embedding) := by
  unfold search at h
  have h1 := List.mem_of_mem_take h
  rw [List.mem_insertionSort] at h1
  obtain ⟨e, he, hpe⟩ := List.mem_map.mp h1
  obtain ⟨hes, hall⟩ := List.mem_filter.mp he
  refine ⟨e, hes, ?_, hpe.symm⟩
  exact List.elem_iff.mp hall

theorem search_sorted (sim : List Int → List Int → Int) (store : IndexStore)
    (qvec : List Int) (allowed : List String) (k : Nat) :
    (search sim store qvec allowed k).Pairwise scoreGe := by
  unfold search
  exact List.Pairwise.sublist (List.take_sublist _ _) (List.sorted_insertionSort scoreGe _)

theorem search_length (sim : List Int → List Int → Int) (store : IndexStore)
    (qvec : List Int) (allowed : List String) (k : Nat) :
    (search sim store qvec allowed k).length ≤ k := by
  unfold search
  simp [List.length_take]

theorem dedupAux_sublist : ∀ (l : List Scored) (seen : List String),
    List.Sublist (dedupAux seen l) l := by
  intro l
  induction l with
  | nil => intro seen; exact List.Sublist.refl _
  | cons x xs ih =>
    intro seen
    unfold dedupAux
    split
    · exact (ih seen).cons x
    · exact (ih _).cons₂ x

theorem not_seen_of_mem_dedupAux : ∀ {l : List Scored} {seen : List String}
    {y : Scored}, y ∈ dedupAux seen l → normUrl y.1.resource_url ∉ seen := by
  intro l
  induction l with
  | nil => intro seen y h; simp [dedupAux] at h
  | cons x xs ih =>
    intro seen y h
    unfold dedupAux at h
    split at h
    · exact ih h
    · rcases List.mem_cons.mp h with hyx | hmem
      · subst hyx; assumption
      · have := ih hmem
        intro hs
        exact this (List.mem_cons.mpr (Or.inr hs))

theorem dedupAux_pairwise_ne : ∀ (l : List Scored) (seen : List String),
    (dedupAux seen l).Pairwise
      (fun a b => normUrl a.1.resource_url ≠ normUrl b.1.resource_url) := by
  intro l
  induction l with
  | nil => intro seen; simp [dedupAux]
  | cons x xs ih =>
    intro seen
    unfold dedupAux
    split
    · exact ih seen
    · refine List.Pairwise.cons ?_ (ih _)
      intro b hb heq
      have := not_seen_of_mem_dedupAux hb
      exact this (List.mem_cons.mpr (Or.inl heq.symm))

theorem dedupAux_keeps_max : ∀ {l : List Scored} (seen : List String),
    l.Pairwise scoreGe →
    ∀ y ∈ dedupAux seen l, ∀ x ∈ l,
      normUrl x.1.resource_url = normUrl y.1.resource_url → x.2 ≤ y.2 := by
  intro l
  induction l with
  | nil => intro seen _ y hy; simp [dedupAux] at hy
  | cons a l ih =>
    intro seen hsort y hy x hx hurl
    have hsort' := List.pairwise_cons.mp hsort
    unfold dedupAux at hy
    split at hy
    case isTrue hseen =>
      rcases List.mem_cons.mp hx with hxa | hxl
      · exfalso
        have hns := not_seen_of_mem_dedupAux hy
        subst hxa
        rw [hurl] at hseen
        exact hns hseen
      · exact ih seen hsort'.2 y hy x hxl hurl
    case isFalse hseen =>
      rcases List.mem_cons.mp hy with hya | hyr
      · subst hya
        rcases List.mem_cons.mp hx with hxa | hxl
        · subst hxa; exact Int.le_refl _
        · exact hsort'.1 x hxl
      · have hns := not_seen_of_mem_dedupAux hyr
        rcases List.mem_cons.mp hx with hxa | hxl
        · exfalso
          subst hxa
          exact hns (List.mem_cons.mpr (Or.inl hurl.symm))
        · exact ih _ hsort'.2 y hyr x hxl hurl

theorem dedupByUrl_sublist (l : List Scored) : List.Sublist (dedupByUrl l) l :=
  dedupAux_sublist l []

theorem dedupByUrl_pairwise_ne (l : List Scored) :
    (dedupByUrl l).Pairwise
      (fun a b => normUrl a.1.resource_url ≠ normUrl b.1.resource_url) :=
  dedupAux_pairwise_ne l []

theorem dedupByUrl_keeps_max {l : List Scored} (hsort : l.Pairwise scoreGe) :
    ∀ y ∈ dedupByUrl l, ∀ x ∈ l,
      normUrl x.1.resource_url = normUrl y.1.resource_url → x.2 ≤ y.2 :=
  dedupAux_keeps_max [] hsort

theorem find_eq_match (cmap : CategoryMap) (embed : String → List Int)
    (sim : List Int → List Int → Int) (store : IndexStore) (q : Query) :
    find cmap embed sim store q =
      match resolve cmap q.subject with
      | .error e => .error e
      | .ok allowed =>
        if (strTrim (effectiveQueryText q.topic q.subtopic)).data.isEmpty then
          .error .InvalidInput
        else
          .ok (List.take (effectiveLimit q.limit)
            (dedupByUrl (search sim store
              (embed (effectiveQueryText q.topic q.subtopic)) allowed
              (effectiveLimit q.limit)))) := by
  unfold find
  cases resolve cmap q.subject <;> rfl

theorem find_ok_shape {cmap : CategoryMap} {embed : String → List Int}
    {sim : List Int → List Int → Int} {store : IndexStore} {q : Query}
    {res : List Scored} (h : find cmap embed sim store q = .ok res) :
    (∃ allowed, resolve cmap q.subject = .ok allowed) ∧
    res = List.take (effectiveLimit q.limit)
      (dedupByUrl (searchHits cmap embed sim store q)) := by
  rw [find_eq_match] at h
  split at h
  · exact Except.noConfusion h
  · rename_i allowed hres
    split at h
    · exact Except.noConfusion h
    · have hsh : searchHits cmap embed sim store q =
          search sim store (embed (effectiveQueryText q.topic q.subtopic))
            allowed (effectiveLimit q.limit) := by
        unfold searchHits
        rw [hres]
      exact ⟨⟨allowed, hres⟩, by rw [hsh]; exact (Except.ok.inj h).symm⟩

theorem searchHits_sorted (cmap : CategoryMap) (embed : String → List Int)
    (sim : List Int → List Int → Int) (store : IndexStore) (q : Query) :
    (searchHits cmap embed sim store q).Pairwise scoreGe := by
  unfold searchHits
  cases resolve cmap q.subject with
  | error e => exact List.Pairwise.nil
  | ok allowed => exact search_sorted sim store _ allowed _

end Mcat

namespace Mcat

/-! Concrete instances used by witnesses and counterexamples. -/

/-- Concrete Category Map: subject `B` covers foundations `F2` and `F3`. -/
def cmapW : CategoryMap := [("B", ["F2", "F3"])]

/-- Concrete embedding function that ignores its input. -/
def embedW : String → List Int := fun _ => []

/-- Concrete similarity: the head of the stored embedding is the score. -/
def simHead : List Int → List Int → Int := fun _ v => v.headD 0

/-- Concrete record in foundation `F2` with url `u1`. -/
def raW : ResourceRecord := ⟨"s", "a", "u1", .Video, "F2", "f", "1 min"⟩

/-- Concrete record in foundation `F2` whose url ` U1 ` differs from `u1`
only by casing and surrounding whitespace. -/
def rbW : ResourceRecord := ⟨"s", "b", " U1 ", .Article, "F2", "f", "2 min"⟩

/-- Concrete record in foundation `F3` with url `u2`. -/
def rcW : ResourceRecord := ⟨"s", "c", "u2", .Other, "F3", "f", "3 min"⟩

/-- Concrete record in foundation `F1`, which subject `B` does not cover. -/
def rxW : ResourceRecord := ⟨"s", "x", "u3", .Video, "F1", "f", "4 min"⟩

/-- Concrete index store holding all four records. -/
def storeW : IndexStore :=
  [⟨"i1", [5], raW⟩, ⟨"i2", [3], rbW⟩, ⟨"i3", [2], rcW⟩, ⟨"i4", [9], rxW⟩]

/-- Concrete store whose hits all carry distinct resource urls. -/
def store8 : IndexStore := [⟨"i1", [5], raW⟩, ⟨"i3", [2], rcW⟩]

/-- Concrete store holding only a record outside the allowed foundations. -/
def store9 : IndexStore := [⟨"i4", [9], rxW⟩]

/-- Concrete query for subject `B`, topic `t`, no subtopic, limit 8. -/
def qW : Query := ⟨"B", "t", none, some 8⟩

/-- Concrete refinement query with subtopic `m`. -/
def qW5 : Query := ⟨"B", "t", some "m", some 8⟩

/-- Concrete query with limit 1. -/
def q8a : Query := ⟨"B", "t", none, some 1⟩

/-- Concrete query that differs from `q8a` only in its limit. -/
def q8b : Query := ⟨"B", "t", none, some 2⟩

/-- Embedding function constant at `[1]`. -/
def e1W : String → List Int := fun _ => [1]

/-- Embedding function agreeing with `e1W` exactly on the string `t m`. -/
def e2W : String → List Int := fun s => if s = "t m" then [1] else []

/-- C1: every entry of a successful find result has a `foundation_name`
inside the allowed-foundation set resolved for the query's subject; a record
whose foundation lies outside that set never appears, whatever its score. -/
theorem find_filter_correct (cmap : CategoryMap) (embed : String → List Int)
    (sim : List Int → List Int → Int) (store : IndexStore) (q : Query)
    (res : List Scored) (allowed : List String)
    (hres : resolve cmap q.subject = Except.ok allowed)
    (h : find cmap embed sim store q = Except.ok res) :
    ∀ p ∈ res, p.1.foundation_name ∈ allowed := by
  intro p hp
  obtain ⟨_, hshape⟩ := find_ok_shape h
  rw [hshape] at hp
  have hp2 := (dedupByUrl_sublist _).mem (List.mem_of_mem_take hp)
  have hsh : searchHits cmap embed sim store q =
      search sim store (embed (effectiveQueryText q.topic q.subtopic))
        allowed (effectiveLimit q.limit) := by
    unfold searchHits
    rw [hres]
  rw [hsh] at hp2
  obtain ⟨e, _, hall, hpe⟩ := mem_search hp2
  rw [hpe]
  exact hall

/-- Witness for C1 at a concrete corpus: the top hit for subject `B` lies in
an allowed foundation. -/
theorem find_filter_correct_witness :
    (raW, (5 : Int)).1.foundation_name ∈ ["F2", "F3"] :=
  find_filter_correct cmapW embedW simHead storeW qW [(raW, 5), (rcW, 2)]
    ["F2", "F3"] rfl rfl (raW, 5) (by decide)

/-- C2: a subject that is not a key of the Category Map makes find fail
closed with `UnknownSubject`, which is a client-class error. -/
theorem find_unknown_subject_fails_closed (cmap : CategoryMap)
    (embed : String → List Int) (sim : List Int → List Int → Int)
    (store : IndexStore) (q : Query)
    (hmiss : ∀ p ∈ cmap, p.1 ≠ q.subject) :
    find cmap embed sim store q = Except.error EngineError.UnknownSubject ∧
    errorClass EngineError.UnknownSubject = ErrorClass.client := by
  have hres : resolve cmap q.subject = Except.error EngineError.UnknownSubject := by
    unfold resolve
    have : List.find? (fun p => p.1 == q.subject) cmap = none := by
      rw [List.find?_eq_none]
      intro p hp
      simpa using hmiss p hp
    rw [this]
  rw [find_eq_match, hres]
  exact ⟨rfl, rfl⟩

/-- Witness for C2: subject `X` is unknown to the concrete Category Map. -/
theorem find_unknown_subject_fails_closed_witness :
    find cmapW embedW simHead storeW ⟨"X", "t", none, none⟩ =
      Except.error EngineError.UnknownSubject ∧
    errorClass EngineError.UnknownSubject = ErrorClass.client :=
  find_unknown_subject_fails_closed cmapW embedW simHead storeW
    ⟨"X", "t", none, none⟩ (by decide)

/-- C3: a successful find result is ordered by non-increasing similarity
score: each entry's score is at least the next entry's score. -/
theorem find_results_sorted_desc (cmap : CategoryMap)
    (embed : String → List Int) (sim : List Int → List Int → Int)
    (store : IndexStore) (q : Query) (res : List Scored)
    (h : find cmap embed sim store q = Except.ok res) :
    ∀ (i : Nat) (hi : i + 1 < res.length),
      (res.get ⟨i + 1, hi⟩).2 ≤ (res.get ⟨i, Nat.lt_of_succ_lt hi⟩).2 := by
  intro i hi
  obtain ⟨_, hshape⟩ := find_ok_shape h
  have hp : res.Pairwise scoreGe := by
    rw [hshape]
    exact List.Pairwise.sublist
      ((List.take_sublist _ _).trans (dedupByUrl_sublist _))
      (searchHits_sorted cmap embed sim store q)
  exact List.pairwise_iff_get.mp hp ⟨i, Nat.lt_of_succ_lt hi⟩ ⟨i + 1, hi⟩
    (Nat.lt_succ_self i)

/-- Witness for C3 at a concrete corpus with two returned results. -/
theorem find_results_sorted_desc_witness :
    (([(raW, (5 : Int)), (rcW, 2)] : List Scored).get ⟨1, by decide⟩).2 ≤
      (([(raW, (5 : Int)), (rcW, 2)] : List Scored).get ⟨0, by decide⟩).2 :=
  find_results_sorted_desc cmapW embedW simHead storeW qW
    [(raW, 5), (rcW, 2)] rfl 0 (by decide)

/-- C4: the result length never exceeds the effective limit; the default
limit is 5, a request above the hard cap 20 is clamped to 20, and the
result length never exceeds 20 nor the caller's requested limit. -/
theorem find_respects_limit (cmap : CategoryMap) (embed : String → List Int)
    (sim : List Int → List Int → Int) (store : IndexStore) (q : Query)
    (res : List Scored) (h : find cmap embed sim store q = Except.ok res) :
    res.length ≤ effectiveLimit q.limit ∧
    effectiveLimit none = 5 ∧
    (∀ n, 20 < n → effectiveLimit (some n) = 20) ∧
    res.length ≤ 20 ∧
    (∀ n, q.limit = some n → res.length ≤ n) := by
  obtain ⟨_, hshape⟩ := find_ok_shape h
  have hlen : res.length ≤ effectiveLimit q.limit := by
    rw [hshape, List.length_take]
    exact Nat.min_le_left _ _
  have hcap : effectiveLimit q.limit ≤ 20 := by
    cases q.limit with
    | none => decide
    | some n => exact Nat.min_le_right n 20
  refine ⟨hlen, rfl, ?_, Nat.le_trans hlen hcap, ?_⟩
  · intro n hn
    have heq : effectiveLimit (some n) = min n 20 := rfl
    rw [heq]
    omega
  · intro n hq
    refine Nat.le_trans hlen ?_
    rw [hq]
    exact Nat.min_le_left n 20

/-- Witness for C4 at a concrete query with requested limit 8. -/
theorem find_respects_limit_witness :
    ([(raW, (5 : Int)), (rcW, 2)] : List Scored).length ≤
      effectiveLimit (some 8) :=
  (find_respects_limit cmapW embedW simHead storeW qW
    [(raW, 5), (rcW, 2)] rfl).1

/-- C5: the text embedded and searched is the effective query text: topic,
space and subtopic when a subtopic is supplied, the topic alone otherwise;
the result of find depends on the embedder only through its value at that
text, and the Mitosis refinement embeds `The Cell Cycle Mitosis`. -/
theorem find_embeds_effective_query_text :
    (∀ t s, effectiveQueryText t (some s) = t ++ " " ++ s) ∧
    (∀ t, effectiveQueryText t none = t) ∧
    effectiveQueryText "The Cell Cycle" (some "Mitosis") =
      "The Cell Cycle Mitosis" ∧
    (∀ (cmap : CategoryMap) (sim : List Int → List Int → Int)
      (store : IndexStore) (q : Query) (embed1 embed2 : String → List Int),
      embed1 (effectiveQueryText q.topic q.subtopic) =
        embed2 (effectiveQueryText q.topic q.subtopic) →
      find cmap embed1 sim store q = find cmap embed2 sim store q) := by
  refine ⟨fun t s => rfl, fun t => rfl, rfl, ?_⟩
  intro cmap sim store q embed1 embed2 hagree
  rw [find_eq_match, find_eq_match, hagree]

/-- Witness for C5: two embedders that agree on the effective query text
`t m` (but not on the bare topic `t`) produce identical find results. -/
theorem find_embeds_effective_query_text_witness :
    find cmapW e1W simHead storeW qW5 = find cmapW e2W simHead storeW qW5 :=
  find_embeds_effective_query_text.2.2.2 cmapW simHead storeW qW5 e1W e2W rfl

/-- C6: find results carry at most one entry per normalized resource url,
keep the rank order of the raw hits, and each returned entry scores at
least as high as every raw hit sharing its url. -/
theorem find_dedup_by_resource_url (cmap : CategoryMap)
    (embed : String → List Int) (sim : List Int → List Int → Int)
    (store : IndexStore) (q : Query) (res : List Scored)
    (h : find cmap embed sim store q = Except.ok res) :
    res.Pairwise
      (fun a b => normUrl a.1.resource_url ≠ normUrl b.1.resource_url) ∧
    List.Sublist res (searchHits cmap embed sim store q) ∧
    (∀ y ∈ res, ∀ x ∈ searchHits cmap embed sim store q,
      normUrl x.1.resource_url = normUrl y.1.resource_url → x.2 ≤ y.2) := by
  obtain ⟨_, hshape⟩ := find_ok_shape h
  refine ⟨?_, ?_, ?_⟩
  · rw [hshape]
    exact List.Pairwise.sublist (List.take_sublist _ _)
      (dedupByUrl_pairwise_ne _)
  · rw [hshape]
    exact (List.take_sublist _ _).trans (dedupByUrl_sublist _)
  · intro y hy x hx hurl
    rw [hshape] at hy
    exact dedupByUrl_keeps_max (searchHits_sorted cmap embed sim store q)
      y (List.mem_of_mem_take hy) x hx hurl

/-- Witness for C6: the hit with url ` U1 ` collapses into the returned
entry with url `u1` and scores no higher than it. -/
theorem find_dedup_by_resource_url_witness :
    ((rbW, (3 : Int)) : Scored).2 ≤ ((raW, (5 : Int)) : Scored).2 :=
  (find_dedup_by_resource_url cmapW embedW simHead storeW qW
    [(raW, 5), (rcW, 2)] rfl).2.2 (raW, 5) (by decide) (rbW, 3) (by decide)
    (by decide)

/-- Counterexample for C8 as stated: two queries with identical subject,
topic and subtopic but different limits return different result sequences
against the same unchanged index. -/
theorem find_same_topic_different_limit_differs :
    q8a.subject = q8b.subject ∧ q8a.topic = q8b.topic ∧
    q8a.subtopic = q8b.subtopic ∧
    find cmapW embedW simHead store8 q8a ≠ find cmapW embedW simHead store8 q8b := by
  refine ⟨rfl, rfl, rfl, ?_⟩
  intro hcontra
  have h1 : find cmapW embedW simHead store8 q8a = Except.ok [(raW, 5)] := rfl
  have h2 : find cmapW embedW simHead store8 q8b =
      Except.ok [(raW, 5), (rcW, 2)] := rfl
  rw [h1, h2] at hcontra
  exact absurd (Except.ok.inj hcontra) (by decide)

/-- C8 (amended): find is deterministic for fully identical queries: equal
subject, topic, subtopic and limit give identical ordered results against
an unchanged index. -/
theorem find_deterministic (cmap : CategoryMap) (embed : String → List Int)
    (sim : List Int → List Int → Int) (store : IndexStore) (q1 q2 : Query)
    (hs : q1.subject = q2.subject) (ht : q1.topic = q2.topic)
    (hst : q1.subtopic = q2.subtopic) (hl : q1.limit = q2.limit) :
    find cmap embed sim store q1 = find cmap embed sim store q2 := by
  obtain ⟨s1, t1, st1, l1⟩ := q1
  obtain ⟨s2, t2, st2, l2⟩ := q2
  cases hs
  cases ht
  cases hst
  cases hl
  rfl

/-- Witness for C8 (amended) at a concrete query. -/
theorem find_deterministic_witness :
    find cmapW embedW simHead store8 q8a = find cmapW embedW simHead store8 q8a :=
  find_deterministic cmapW embedW simHead store8 q8a q8a rfl rfl rfl rfl

/-- C9: when the subject is known, the query text is non-empty and no stored
entry satisfies the subject filter, find succeeds with the empty sequence:
no results is not an error. -/
theorem find_empty_ok (cmap : CategoryMap) (embed : String → List Int)
    (sim : List Int → List Int → Int) (store : IndexStore) (q : Query)
    (allowed : List String)
    (hres : resolve cmap q.subject = Except.ok allowed)
    (hne : (strTrim (effectiveQueryText q.topic q.subtopic)).data.isEmpty = false)
    (hmiss : ∀ e ∈ store, e.metadata.foundation_name ∉ allowed) :
    find cmap embed sim store q = Except.ok [] := by
  have hok : find cmap embed sim store q =
      if (strTrim (effectiveQueryText q.topic q.subtopic)).data.isEmpty then
        Except.error EngineError.InvalidInput
      else
        Except.ok (List.take (effectiveLimit q.limit)
          (dedupByUrl (search sim store
            (embed (effectiveQueryText q.topic q.subtopic)) allowed
            (effectiveLimit q.limit)))) := by
    unfold find
    rw [hres]
    rfl
  rw [hok, if_neg (by simp [hne])]
  have hfil : List.filter
      (fun e => List.contains allowed e.metadata.foundation_name) store = [] := by
    rw [List.filter_eq_nil_iff]
    intro e he
    simpa using hmiss e he
  unfold search
  rw [hfil]
  simp [List.insertionSort, dedupByUrl, dedupAux]

/-- Witness for C9: a store holding only a record of a foundation outside
the allowed set yields a successful, empty result. -/
theorem find_empty_ok_witness :
    find cmapW embedW simHead store9 qW = Except.ok [] :=
  find_empty_ok cmapW embedW simHead store9 qW ["F2", "F3"] rfl rfl (by decide)

end Mcat

namespace Frontend

/-- C10: after a completed fetch the loading flag is cleared, an error and a
non-empty resource list are never held together, a missing `resources` field
maps to the empty list, and both failure outcomes leave the resources empty
with an error message set. -/
theorem fetchResources_state_invariant (st : FrontState) (resp : ApiResponse) :
    ((fetchResources st resp).error = none ∨
      (fetchResources st resp).resources = []) ∧
    (fetchResources st (ApiResponse.ok none)).resources = [] ∧
    (fetchResources st resp).isLoading = false ∧
    (∀ d, (fetchResources st (ApiResponse.httpError d)).error =
        some ("API Error: " ++ d) ∧
      (fetchResources st (ApiResponse.httpError d)).resources = []) ∧
    (∀ m, (fetchResources st (ApiResponse.netError m)).error = some m ∧
      (fetchResources st (ApiResponse.netError m)).resources = []) := by
  refine ⟨?_, rfl, ?_, fun d => ⟨rfl, rfl⟩, fun m => ⟨rfl, rfl⟩⟩
  · cases resp with
    | ok rs => exact Or.inl rfl
    | httpError d => exact Or.inr rfl
    | netError m => exact Or.inr rfl
  · cases resp <;> rfl

end Frontend

namespace Mcat

/-! Lemmas about the Index Builder: upsert, stored ids and idempotence. -/

theorem hasId_eq_ids (st : IndexStore) (i : String) :
    hasId st i = (st.map IndexEntry.id).any (fun x => x == i) := by
  unfold hasId
  induction st with
  | nil => rfl
  | cons a t ih =>
    simp only [List.any_cons, List.map_cons]
    rw [ih]

theorem upsert_id_map (s : IndexStore) (e : IndexEntry)
    (h : hasId s e.id = true) :
    (upsert s e).map IndexEntry.id = s.map IndexEntry.id := by
  unfold upsert
  rw [if_pos h, List.map_map]
  apply List.map_congr_left
  intro en hen
  by_cases hid : en.id = e.id
  · simp [Function.comp, hid]
  · simp [Function.comp, hid]

theorem hasId_upsert_of_hasId (s : IndexStore) (e : IndexEntry)
    (h : hasId s e.id = true) (i : String) :
    hasId (upsert s e) i = hasId s i := by
  rw [hasId_eq_ids, upsert_id_map s e h, ← hasId_eq_ids]

theorem hasId_upsert_mono {s : IndexStore} {e : IndexEntry} {i : String}
    (h : hasId s i = true) : hasId (upsert s e) i = true := by
  by_cases hse : hasId s e.id = true
  · rw [hasId_upsert_of_hasId s e hse]
    exact h
  · have happ : upsert s e = s ++ [e] := by
      unfold upsert
      rw [if_neg hse]
    rw [happ]
    unfold hasId at h ⊢
    simp [List.any_append, h]

theorem hasId_upsert_self (s : IndexStore) (e : IndexEntry) :
    hasId (upsert s e) e.id = true := by
  by_cases hse : hasId s e.id = true
  · rw [hasId_upsert_of_hasId s e hse]
    exact hse
  · have happ : upsert s e = s ++ [e] := by
      unfold upsert
      rw [if_neg hse]
    rw [happ]
    unfold hasId
    simp

theorem hasId_build_mono (embed : String → List Int) :
    ∀ (rs : List ResourceRecord) (s : IndexStore) (i : String),
      hasId s i = true → hasId (build embed s rs) i = true := by
  intro rs
  induction rs with
  | nil => intro s i h; exact h
  | cons r rs ih =>
    intro s i h
    exact ih (upsert s (mkEntry embed r)) i (hasId_upsert_mono h)

theorem present_build (embed : String → List Int) :
    ∀ (rs : List ResourceRecord) (s : IndexStore) (r : ResourceRecord),
      r ∈ rs → hasId (build embed s rs) (stableId r) = true := by
  intro rs
  induction rs with
  | nil => intro s r h; cases h
  | cons a rs ih =>
    intro s r h
    rcases List.mem_cons.mp h with hra | hmem
    · subst hra
      exact hasId_build_mono embed rs _ _ (hasId_upsert_self s (mkEntry embed r))
    · exact ih _ r hmem

theorem ids_build_of_present (embed : String → List Int) :
    ∀ (rs : List ResourceRecord) (s : IndexStore),
      (∀ r ∈ rs, hasId s (stableId r) = true) →
      (build embed s rs).map IndexEntry.id = s.map IndexEntry.id := by
  intro rs
  induction rs with
  | nil => intro s _; rfl
  | cons a rs ih =>
    intro s hall
    have ha : hasId s (stableId a) = true := hall a (List.mem_cons_self a rs)
    have h1 : (upsert s (mkEntry embed a)).map IndexEntry.id =
        s.map IndexEntry.id := upsert_id_map s (mkEntry embed a) ha
    have h2 : ∀ r ∈ rs, hasId (upsert s (mkEntry embed a)) (stableId r) = true := by
      intro r hr
      rw [hasId_eq_ids, h1, ← hasId_eq_ids]
      exact hall r (List.mem_cons_of_mem a hr)
    show (build embed (upsert s (mkEntry embed a)) rs).map IndexEntry.id =
      s.map IndexEntry.id
    rw [ih _ h2]
    exact h1

theorem entryAt_upsert_self (s : IndexStore) (e : IndexEntry) :
    entryAt (upsert s e) e.id = some e := by
  unfold upsert
  split
  case isTrue h =>
    unfold entryAt
    rw [List.find?_map]
    have hpf : ((fun en : IndexEntry => en.id == e.id) ∘
        (fun en => if en.id == e.id then e else en)) =
        (fun en : IndexEntry => en.id == e.id) := by
      funext en
      by_cases hid : en.id = e.id
      · simp [Function.comp, hid]
      · simp [Function.comp, hid]
    rw [hpf]
    unfold hasId at h
    obtain ⟨en, hen, hpe⟩ := List.any_eq_true.mp h
    cases hfind : List.find? (fun en => en.id == e.id) s with
    | none =>
      rw [List.find?_eq_none] at hfind
      exact absurd hpe (hfind en hen)
    | some en2 =>
      have hp2 := List.find?_some hfind
      show some (if en2.id == e.id then e else en2) = some e
      rw [if_pos hp2]
  case isFalse h =>
    unfold entryAt
    rw [List.find?_append]
    have hnone : List.find? (fun en => en.id == e.id) s = none := by
      rw [List.find?_eq_none]
      intro x hx hbeq
      unfold hasId at h
      exact h (List.any_eq_true.mpr ⟨x, hx, hbeq⟩)
    rw [hnone, Option.none_or]
    simp

theorem entryAt_upsert_ne (s : IndexStore) (e : IndexEntry) (i : String)
    (hne : i ≠ e.id) : entryAt (upsert s e) i = entryAt s i := by
  unfold upsert
  split
  case isTrue h =>
    unfold entryAt
    rw [List.find?_map]
    have hpf : ((fun en : IndexEntry => en.id == i) ∘
        (fun en => if en.id == e.id then e else en)) =
        (fun en : IndexEntry => en.id == i) := by
      funext en
      by_cases hid : en.id = e.id
      · simp [Function.comp, hid]
      · simp [Function.comp, hid]
    rw [hpf]
    cases hfind : List.find? (fun en => en.id == i) s with
    | none => rfl
    | some en2 =>
      have hp2 : en2.id = i := by simpa using List.find?_some hfind
      have hne2 : (en2.id == e.id) = false := by
        rw [hp2]
        exact beq_eq_false_iff_ne.mpr hne
      show some (if en2.id == e.id then e else en2) = some en2
      rw [hne2]
      rfl
  case isFalse h =>
    unfold entryAt
    rw [List.find?_append]
    have hsing : List.find? (fun en => en.id == i) [e] = none := by
      rw [List.find?_eq_none]
      intro x hx
      rw [List.mem_singleton] at hx
      subst hx
      simp
      exact fun hxe => hne hxe.symm
    rw [hsing, Option.or_none]

/-- Last record of a sequence whose stable id is the given id, the record
whose entry survives a build pass. -/
def lastWith (records : List ResourceRecord) (id : String) :
    Option ResourceRecord :=
  List.find? (fun r => stableId r == id) records.reverse

theorem build_entryAt (embed : String → List Int) :
    ∀ (rs : List ResourceRecord) (s : IndexStore) (i : String),
      entryAt (build embed s rs) i =
        match lastWith rs i with
        | some r => some (mkEntry embed r)
        | none => entryAt s i := by
  intro rs
  induction rs with
  | nil => intro s i; rfl
  | cons r rs ih =>
    intro s i
    have hstep : entryAt (build embed s (r :: rs)) i =
        entryAt (build embed (upsert s (mkEntry embed r)) rs) i := rfl
    rw [hstep, ih]
    have hrev : lastWith (r :: rs) i =
        (lastWith rs i).or (List.find? (fun x => stableId x == i) [r]) := by
      unfold lastWith
      rw [List.reverse_cons, List.find?_append]
    cases hl : lastWith rs i with
    | some r2 =>
      rw [hrev, hl]
      rfl
    | none =>
      rw [hrev, hl, Option.none_or]
      by_cases hid : stableId r = i
      · have hfind : List.find? (fun x => stableId x == i) [r] = some r := by
          apply List.find?_cons_of_pos
          simp [hid]
        rw [hfind]
        subst hid
        exact entryAt_upsert_self s (mkEntry embed r)
      · have hfind : List.find? (fun x => stableId x == i) [r] = none := by
          rw [List.find?_eq_none]
          intro x hx
          rw [List.mem_singleton] at hx
          subst hx
          simp
          exact hid
        rw [hfind]
        exact entryAt_upsert_ne s (mkEntry embed r) i (fun hie => hid hie.symm)

/-- C7: building an unchanged corpus twice stores the same entries as
building it once: every id maps to the same entry (same embedding and
metadata), and the stored id sequence is unchanged; a re-run is a repeat
maintenance operation, not an append. -/
theorem build_index_idempotent (embed : String → List Int)
    (store : IndexStore) (records : List ResourceRecord) :
    (∀ id, entryAt (build embed (build embed store records) records) id =
      entryAt (build embed store records) id) ∧
    (build embed (build embed store records) records).map IndexEntry.id =
      (build embed store records).map IndexEntry.id := by
  constructor
  · intro i
    rw [build_entryAt embed records (build embed store records) i]
    cases hl : lastWith records i with
    | some r =>
      rw [build_entryAt embed records store i, hl]
    | none => rfl
  · exact ids_build_of_present embed records (build embed store records)
      (fun r hr => present_build embed records store r hr)

end Mcat
